import Mathlib

/-!
Shallow embedding of the chunked-blob layer of `fdbkit/blob.py` (the complete
implementation of the two near-duplicate modules; `fdbfs/blob.py` holds an
earlier cut of the same `_write`).  The backing FoundationDB store is modelled
as an association list from chunk index to chunk value kept in ascending key
order, which is how FoundationDB stores and iterates keys; a transactional
method that raises an exception commits nothing, so methods return the
unchanged store/handle together with the error.

Python-to-Lean conventions used throughout:
* byte strings are `List Nat`;
* Python 2 `/` on non-negative ints is `Nat` division;
* `s[a:b]` is `(s.drop a).take (b - a)` (Python slices clamp, as `take`/`drop` do);
* a value that may be `None` is an `Option`;
* a method that may raise is wrapped in `Except String` (or paired with
  `Option String`), and an exception inside an `@fdb.transactional` body
  aborts the transaction, so no store mutation is kept.
-/

namespace FdbBlob

/-- Bytes (elements of a Python byte string). -/
abbrev Byte := Nat

/-- A chunk value: the raw bytes stored under one key. -/
abbrev Chunk := List Byte

/-- The key range of one blob inside its subspace: an association list from
chunk index to chunk value, kept in ascending key order (FoundationDB keeps
keys ordered; `storeSet` preserves the order). -/
abbrev Store := List (Nat × Chunk)

/-- Key lookup `tr[self._space.pack((k,))]`, returning `none` when the key is
absent (`chunk.present()` is false). -/
def storeGet : Store → Nat → Option Chunk
  | [], _ => none
  | (k', v) :: rest, k => if k = k' then some v else storeGet rest k

/-- Key assignment `tr[self._space.pack((k,))] = v`, keeping the association
list in ascending key order. -/
def storeSet : Store → Nat → Chunk → Store
  | [], k, v => [(k, v)]
  | (k', v') :: rest, k, v =>
    if k < k' then (k, v) :: (k', v') :: rest
    else if k = k' then (k, v) :: rest
    else (k', v') :: storeSet rest k v

/-- `BlobIO._get_size` (fdbkit/blob.py lines 94-105): a reverse range scan
with limit 1 returns the highest key of the blob's range (the last entry of
the ordered list); the loop body sets `l = last_chunk_index * chunk_size +
len(v)`, and `l` stays 0 when the range is empty. -/
def getSize (chunkSize : Nat) (s : Store) : Nat :=
  match s.getLast? with
  | none => 0
  | some (k, v) => k * chunkSize + v.length

/-- The transient state of one `BlobIO` handle: the cursor (`self._cursor`,
starts at 0) and the closed flag (`self._closed`, starts false). -/
structure Handle where
  cursor : Nat
  closed : Bool
deriving DecidableEq

/-- A fresh handle as built by `BlobIO.__init__`. -/
def freshHandle : Handle := { cursor := 0, closed := false }

/-- `BlobIO.tell` in the source (lines 51-55), named `BlobIOBase.tell` here
because of Lean naming constraints: returns `self._cursor`.  The method body
performs no closed check, so it never raises. -/
def BlobIOBase.tell (h : Handle) : Except String Nat := .ok h.cursor

/-- `BlobIO.close` in the source (lines 57-61): sets `self._closed = True`. -/
def BlobIOBase.close (h : Handle) : Handle := { h with closed := true }

/-- `BlobIO._seek` (lines 79-92).  `whence` values follow `os.SEEK_SET = 0`,
`os.SEEK_CUR = 1`, `os.SEEK_END = 2`; any other value raises
`NotImplementedError`.  The result is `min(max(new_cursor, 0), l)` with
`l = self._get_size(tr)`. -/
def seekTr (chunkSize : Nat) (s : Store) (current : Nat) (cursor : Int) (whence : Nat) :
    Except String Int := do
  let l : Int := (getSize chunkSize s : Nat)
  let newCursor : Int ←
    match whence with
    | 0 => pure cursor
    | 1 => pure ((current : Int) + cursor)
    | 2 => pure (l + cursor)
    | _ => throw "NotImplementedError"
  pure (min (max newCursor 0) l)

/-- `BlobIO.seek` in the source (lines 70-77): raises on a closed handle and otherwise runs
`_seek` and stores the result into `self._cursor`.  When `_seek` raises, the
assignment never happens, so the handle is returned unchanged together with
the error. -/
def BlobIOBase.seek (chunkSize : Nat) (s : Store) (h : Handle) (cursor : Int) (whence : Nat) :
    Handle × Option String :=
  if h.closed then (h, some "Can not access closed blob")
  else
    match seekTr chunkSize s h.cursor cursor whence with
    | .ok c => ({ h with cursor := c.toNat }, none)
    | .error e => (h, some e)

/-- The loop of `BlobReader._read_chunk` (lines 143-165), iterating over the
range-scan result in key order.  `size` is `none` for Python `None`; Python's
truthiness test `if size:` holds exactly for `some (n+1)`.  Inside the body:
when the remaining size is smaller than the slice, the slice is truncated and
`size` is left unchanged; otherwise `size` is decremented by the slice length;
the cursor advances by the kept length, and `if size == 0: break` stops the
loop (note `None == 0` is false). -/
def readLoop (chunkSize : Nat) : Store → Nat → Option Nat → List Byte → List Byte × Nat
  | [], cursor, _, buf => (buf, cursor)
  | (k, v) :: rest, cursor, size, buf =>
    let startCursor := k * chunkSize
    if startCursor ≤ cursor then
      let chunk := v.drop (cursor - startCursor)
      match size with
      | some (n + 1) =>
        if n + 1 < chunk.length then
          readLoop chunkSize rest (cursor + (n + 1)) (some (n + 1)) (buf ++ chunk.take (n + 1))
        else
          if n + 1 - chunk.length = 0 then (buf ++ chunk, cursor + chunk.length)
          else
            readLoop chunkSize rest (cursor + chunk.length) (some (n + 1 - chunk.length))
              (buf ++ chunk)
      | _ =>
        if size = some 0 then (buf ++ chunk, cursor + chunk.length)
        else readLoop chunkSize rest (cursor + chunk.length) size (buf ++ chunk)
    else readLoop chunkSize rest cursor size buf

/-- `BlobReader._read_chunk` (lines 128-167): computes `start_chunk =
cursor / chunk_size`; when `size` is truthy the scan is bounded by
`first_greater_than(pack(end_chunk))` with `end_chunk = (cursor + size) /
chunk_size` (so keys up to and including `end_chunk` are scanned), otherwise
the scan runs to the end of the blob's range. -/
def readChunk (chunkSize : Nat) (s : Store) (cursor : Nat) (size : Option Nat) :
    List Byte × Nat :=
  let startChunk := cursor / chunkSize
  let entries :=
    match size with
    | some (n + 1) =>
      let endChunk := (cursor + (n + 1)) / chunkSize
      s.filter fun e => decide (startChunk ≤ e.1 ∧ e.1 ≤ endChunk)
    | _ => s.filter fun e => decide (startChunk ≤ e.1)
  readLoop chunkSize entries cursor size []

/-- `BlobReader.read` (lines 120-126): raises on a closed handle, otherwise
runs `_read_chunk` and stores the new cursor. -/
def BlobReader.read (chunkSize : Nat) (s : Store) (h : Handle) (size : Option Nat) :
    Handle × Except String (List Byte) :=
  if h.closed then (h, .error "Can not access closed blob")
  else
    let r := readChunk chunkSize s h.cursor size
    ({ h with cursor := r.2 }, .ok r.1)

/-- The aligned bulk-write loop of `BlobWriter._write` (lines 215-224):
`for i in range(chunks): chunk = data[i*chunk_size:(i+1)*chunk_size]; ...`,
storing each slice and advancing cursor and chunk index.  The first argument
is the number of remaining iterations, the second the running loop index `i`.
(The source's `assert this_chunk_size <= chunk_size` always holds for a
`take chunkSize` slice.) -/
def writeChunksLoop (chunkSize : Nat) (data : List Byte) :
    Nat → Nat → Store → Nat → Nat → Store × Nat
  | 0, _, s, cursor, _ => (s, cursor)
  | n + 1, i, s, cursor, chunkIndex =>
    let chunk := (data.drop (i * chunkSize)).take chunkSize
    writeChunksLoop chunkSize data n (i + 1) (storeSet s chunkIndex chunk)
      (cursor + chunk.length) (chunkIndex + 1)

/-- `BlobWriter._write` (lines 182-224).  `chunks = int(math.ceil(float(len)
/ chunk_size))`, which for a zero `chunk_size` raises `ZeroDivisionError` in
the source and is mapped to an error here.  When the cursor is not
chunk-aligned the boundary merge runs: the existing chunk must be present
(`assert chunk.present()`), the merged value is
`chunk[0:cursor-start_cursor] + data[0:next_cursor-cursor]`, the cursor
advances to `next_cursor` when the merged value is full and to
`start_cursor + len(new_chunk)` otherwise, and the call recurses on the
remaining buffer inside the same transaction. -/
def writeTr (chunkSize : Nat) (s : Store) (cursor : Nat) (data : List Byte) :
    Except String (Store × Nat) :=
  if h0 : chunkSize = 0 then .error "ZeroDivisionError: float division"
  else
    let chunks := (data.length + chunkSize - 1) / chunkSize
    let chunkIndex := cursor / chunkSize
    let startCursor := chunkIndex * chunkSize
    if startCursor = cursor then
      .ok (writeChunksLoop chunkSize data chunks 0 s cursor chunkIndex)
    else
      let nextCursor := startCursor + chunkSize
      match storeGet s chunkIndex with
      | none => .error "Do not support missing chunk yet"
      | some chunk =>
        let newChunk := chunk.take (cursor - startCursor) ++ data.take (nextCursor - cursor)
        let s' := storeSet s chunkIndex newChunk
        let buf := data.drop (nextCursor - cursor)
        let cursor' := if newChunk.length = chunkSize then nextCursor
                       else startCursor + newChunk.length
        if hb : buf.length = 0 then .ok (s', cursor')
        else writeTr chunkSize s' cursor' buf
termination_by data.length
decreasing_by
  have hb2 : (List.drop (cursor / chunkSize * chunkSize + chunkSize - cursor) data).length ≠ 0 :=
    hb
  rw [List.length_drop] at hb2
  have hmod := Nat.div_add_mod cursor chunkSize
  have hcomm : cursor / chunkSize * chunkSize = chunkSize * (cursor / chunkSize) :=
    Nat.mul_comm _ _
  have hlt : cursor % chunkSize < chunkSize := Nat.mod_lt _ (Nat.pos_of_ne_zero h0)
  simp only [List.length_drop]
  omega

/-- `BlobWriter.write` (lines 175-180): raises on a closed handle, otherwise
runs `_write` and stores the returned cursor.  An exception inside the
transactional `_write` aborts the transaction, so on error both the store and
the handle are unchanged. -/
def BlobWriter.write (chunkSize : Nat) (s : Store) (h : Handle) (data : List Byte) :
    Store × Handle × Option String :=
  if h.closed then (s, h, some "Can not access closed blob")
  else
    match writeTr chunkSize s h.cursor data with
    | .ok r => (r.1, { h with cursor := r.2 }, none)
    | .error e => (s, h, some e)

/-- The chunk list created by `n` consecutive full-slice stores starting at
chunk index `a`, slicing `d` into `chunkSize`-byte pieces.  This is the
closed form of `writeChunksLoop` acting on a fresh tail of the key space,
and (with `n = ceil (d.length / chunkSize)`) the layout of a well-formed
blob holding content `d`. -/
def mkChunks (chunkSize : Nat) : Nat → Nat → List Byte → Store
  | 0, _, _ => []
  | n + 1, a, d => (a, d.take chunkSize) :: mkChunks chunkSize n (a + 1) (d.drop chunkSize)

/-- The store of a well-formed blob with content `B`: `ceil(|B| / chunkSize)`
chunks starting at index 0. -/
def mkBlob (chunkSize : Nat) (B : List Byte) : Store :=
  mkChunks chunkSize ((B.length + chunkSize - 1) / chunkSize) 0 B

/-- The highest chunk index present in a store (0 for an empty store). -/
def maxIndex (s : Store) : Nat := s.foldr (fun e m => max e.1 m) 0

/-- A store kept in strictly ascending key order (FoundationDB key order). -/
def SortedStore (s : Store) : Prop := List.Pairwise (fun a b => a.1 < b.1) s

/-- The chunk-length invariant claimed by the spec: every chunk except the
highest-indexed one has length exactly `chunkSize`, and the highest-indexed
chunk has length in `(0, chunkSize]`. -/
def chunkLenSpec (chunkSize : Nat) (s : Store) : Bool :=
  s.all fun e =>
    if e.1 = maxIndex s then decide (0 < e.2.length ∧ e.2.length ≤ chunkSize)
    else decide (e.2.length = chunkSize)

/-- The chunk-length invariant the code actually maintains: every stored
chunk has length in `(0, chunkSize]`. -/
def chunkSizesOk (chunkSize : Nat) (s : Store) : Prop :=
  ∀ e ∈ s, 0 < e.2.length ∧ e.2.length ≤ chunkSize

/-- One client operation on a blob writer handle: `write(data)` or
`seek(cursor, whence)`. -/
inductive Op where
  | write (data : List Byte)
  | seek (cursor : Int) (whence : Nat)

/-- Run one operation on a (store, cursor) state; `none` when the operation
raises (the transaction aborts, nothing commits). -/
def runOp (chunkSize : Nat) (st : Store × Nat) : Op → Option (Store × Nat)
  | .write data =>
    match writeTr chunkSize st.1 st.2 data with
    | .ok r => some r
    | .error _ => none
  | .seek cursor whence =>
    match seekTr chunkSize st.1 st.2 cursor whence with
    | .ok c => some (st.1, c.toNat)
    | .error _ => none

/-- Run a sequence of operations, stopping at the first failure. -/
def runOps (chunkSize : Nat) : Store × Nat → List Op → Option (Store × Nat)
  | st, [] => some st
  | st, op :: ops =>
    match runOp chunkSize st op with
    | some st' => runOps chunkSize st' ops
    | none => none

/-- A blob state reachable from the empty blob and a fresh cursor by a
sequence of successful write and seek operations. -/
def ReachableState (chunkSize : Nat) (st : Store × Nat) : Prop :=
  ∃ ops : List Op, runOps chunkSize ([], 0) ops = some st

/-! ### Basic lemmas about the key-value store -/

theorem storeGet_storeSet_self (s : Store) (k : Nat) (v : Chunk) :
    storeGet (storeSet s k v) k = some v := by
  induction s with
  | nil => simp [storeSet, storeGet]
  | cons a rest ih =>
    obtain ⟨ak, av⟩ := a
    by_cases h1 : k < ak
    · simp [storeSet, h1, storeGet]
    · by_cases h2 : k = ak
      · simp [storeSet, h1, h2, storeGet]
      · simp [storeSet, h1, h2, storeGet, ih]

theorem storeGet_storeSet_ne (s : Store) (k k' : Nat) (v : Chunk) (h : k' ≠ k) :
    storeGet (storeSet s k v) k' = storeGet s k' := by
  induction s with
  | nil => simp [storeSet, storeGet, h]
  | cons a rest ih =>
    obtain ⟨ak, av⟩ := a
    by_cases h1 : k < ak
    · simp [storeSet, h1, storeGet, h]
    · by_cases h2 : k = ak
      · subst h2
        simp [storeSet, h1, storeGet, h]
      · simp [storeSet, h1, h2, storeGet, ih]

theorem mem_storeSet {s : Store} {k : Nat} {v : Chunk} {e : Nat × Chunk} :
    e ∈ storeSet s k v → e = (k, v) ∨ e ∈ s := by
  induction s with
  | nil =>
    intro h
    simpa [storeSet] using h
  | cons a rest ih =>
    intro h
    obtain ⟨ak, av⟩ := a
    simp only [storeSet] at h
    split at h
    · rcases List.mem_cons.mp h with h' | h'
      · exact Or.inl h'
      · exact Or.inr h'
    · split at h
      · rcases List.mem_cons.mp h with h' | h'
        · exact Or.inl h'
        · exact Or.inr (List.mem_cons_of_mem _ h')
      · rcases List.mem_cons.mp h with h' | h'
        · exact Or.inr (by simp [h'])
        · rcases ih h' with h'' | h''
          · exact Or.inl h''
          · exact Or.inr (List.mem_cons_of_mem _ h'')

theorem storeGet_mem {s : Store} {k : Nat} {v : Chunk} :
    storeGet s k = some v → (k, v) ∈ s := by
  induction s with
  | nil =>
    intro h
    simp [storeGet] at h
  | cons a rest ih =>
    intro h
    obtain ⟨ak, av⟩ := a
    by_cases h1 : k = ak
    · subst h1
      simp only [storeGet, if_true, eq_self_iff_true] at h
      have h2 : av = v := by simpa using h
      subst h2
      exact List.mem_cons_self _ _
    · simp only [storeGet, if_neg h1] at h
      exact List.mem_cons_of_mem _ (ih h)

theorem storeSet_append {s : Store} {k : Nat} {v : Chunk}
    (h : ∀ e ∈ s, e.1 < k) : storeSet s k v = s ++ [(k, v)] := by
  induction s with
  | nil => simp [storeSet]
  | cons a rest ih =>
    obtain ⟨ak, av⟩ := a
    have hak : ak < k := h (ak, av) (List.mem_cons_self _ _)
    have h1 : ¬ k < ak := by omega
    have h2 : ¬ k = ak := by omega
    simp only [storeSet, if_neg h1, if_neg h2, List.cons_append, List.cons.injEq, true_and]
    exact ih fun e he => h e (List.mem_cons_of_mem _ he)

/-! ### Ceiling-division arithmetic used by the write loop -/

theorem ceil_mul_ge (cs L : Nat) (h : 0 < cs) : L ≤ (L + cs - 1) / cs * cs := by
  have hmod := Nat.div_add_mod (L + cs - 1) cs
  have hlt : (L + cs - 1) % cs < cs := Nat.mod_lt _ h
  have hcomm : (L + cs - 1) / cs * cs = cs * ((L + cs - 1) / cs) := Nat.mul_comm _ _
  omega

theorem lt_ceil_mul (cs L j : Nat) (h : 0 < cs) (hj : j < (L + cs - 1) / cs) :
    j * cs < L := by
  have h1 : (j + 1) * cs ≤ (L + cs - 1) / cs * cs := Nat.mul_le_mul_right _ hj
  have h2 : (L + cs - 1) / cs * cs ≤ L + cs - 1 := Nat.div_mul_le_self _ _
  have h3 : (j + 1) * cs = j * cs + cs := Nat.succ_mul _ _
  omega

theorem ceil_succ_of_ge (cs L n : Nat) (hcs : 0 < cs) (hL : 1 ≤ L)
    (hn : (L + cs - 1) / cs = n + 1) : (L - cs + cs - 1) / cs = n := by
  have h1 : L + cs - 1 = (L - 1) + cs := by omega
  rw [h1, Nat.add_div_right _ hcs] at hn
  have h2 : (L - 1) / cs = n := by omega
  rcases Nat.lt_or_ge cs L with hlt | hle
  · have h3 : L - cs + cs - 1 = L - 1 := by omega
    rw [h3, h2]
  · have h3 : L - cs + cs - 1 = cs - 1 := by omega
    rw [h3, Nat.div_eq_of_lt (by omega)]
    have h4 : L - 1 < cs := by omega
    rw [Nat.div_eq_of_lt h4] at h2
    omega

theorem ceil_eq_zero_iff (cs L : Nat) (hcs : 0 < cs) :
    (L + cs - 1) / cs = 0 ↔ L = 0 := by
  constructor
  · intro h
    have h1 : L + cs - 1 < cs := by
      by_contra hc
      have := Nat.div_le_div_right (c := cs) (Nat.le_of_not_lt hc)
      rw [Nat.div_self hcs] at this
      omega
    omega
  · intro h
    subst h
    exact Nat.div_eq_of_lt (by omega)

/-! ### Characterisation of the aligned bulk-write loop -/

theorem writeChunksLoop_eq (chunkSize : Nat) (data : List Byte) :
    ∀ (n i : Nat) (s : Store) (cursor chunkIndex : Nat),
      (∀ e ∈ s, e.1 < chunkIndex) →
      writeChunksLoop chunkSize data n i s cursor chunkIndex =
        (s ++ mkChunks chunkSize n chunkIndex (data.drop (i * chunkSize)),
          cursor + min (n * chunkSize) (data.length - i * chunkSize)) := by
  intro n
  induction n with
  | zero =>
    intro i s cursor ci h
    simp [writeChunksLoop, mkChunks]
  | succ n ih =>
    intro i s cursor ci h
    simp only [writeChunksLoop]
    have hset : storeSet s ci ((data.drop (i * chunkSize)).take chunkSize)
        = s ++ [(ci, (data.drop (i * chunkSize)).take chunkSize)] := storeSet_append h
    have hnext : ∀ e ∈ s ++ [(ci, (data.drop (i * chunkSize)).take chunkSize)],
        e.1 < ci + 1 := by
      intro e he
      rcases List.mem_append.mp he with he | he
      · exact Nat.lt_succ_of_lt (h e he)
      · have he' := List.mem_singleton.mp he
        subst he'
        exact Nat.lt_succ_self _
    rw [hset, ih (i + 1) _ _ _ hnext]
    have hdd : (data.drop (i * chunkSize)).drop chunkSize = data.drop ((i + 1) * chunkSize) := by
      rw [List.drop_drop, Nat.succ_mul]
    rw [Prod.mk.injEq]
    constructor
    · simp only [mkChunks, hdd, List.append_assoc, List.singleton_append]
    · rw [List.length_take, List.length_drop]
      have h1 : (i + 1) * chunkSize = i * chunkSize + chunkSize := Nat.succ_mul _ _
      have h2 : (n + 1) * chunkSize = n * chunkSize + chunkSize := Nat.succ_mul _ _
      omega

/-! ### Reading a well-formed chunk layout with no size limit -/

theorem readLoop_mkChunks_none (cs : Nat) (hcs : 0 < cs) :
    ∀ (n a : Nat) (d buf : List Byte), n = (d.length + cs - 1) / cs →
      readLoop cs (mkChunks cs n a d) (a * cs) none buf = (buf ++ d, a * cs + d.length) := by
  intro n
  induction n with
  | zero =>
    intro a d buf hn
    have hd0 : d.length = 0 := (ceil_eq_zero_iff cs d.length hcs).mp hn.symm
    have hd : d = [] := List.eq_nil_of_length_eq_zero hd0
    subst hd
    simp [mkChunks, readLoop]
  | succ n ih =>
    intro a d buf hn
    have hd1 : 1 ≤ d.length := by
      by_contra hc
      have hz : d.length = 0 := by omega
      have := (ceil_eq_zero_iff cs d.length hcs).mpr hz
      omega
    simp only [mkChunks, readLoop, le_refl, if_true, Nat.sub_self, List.drop_zero]
    have hnone : ((none : Option Nat) = some 0) = False := by simp
    simp only [hnone, if_false]
    rcases Nat.lt_or_ge d.length cs with hlt | hge
    · have hn0 : n = 0 := by
        have h1 : d.length + cs - 1 = (d.length - 1) + cs := by omega
        rw [h1, Nat.add_div_right _ hcs, Nat.div_eq_of_lt (by omega)] at hn
        omega
      subst hn0
      have ht : d.take cs = d := List.take_of_length_le (by omega)
      rw [ht]
      simp [mkChunks, readLoop]
    · have hlen : (d.take cs).length = cs := by
        rw [List.length_take]
        omega
      rw [hlen]
      have hcur : a * cs + cs = (a + 1) * cs := (Nat.succ_mul _ _).symm
      rw [hcur]
      have hn' : n = ((d.drop cs).length + cs - 1) / cs := by
        rw [List.length_drop]
        exact (ceil_succ_of_ge cs d.length n hcs hd1 hn.symm).symm
      rw [ih (a + 1) (d.drop cs) (buf ++ d.take cs) hn']
      rw [Prod.mk.injEq]
      constructor
      · rw [List.append_assoc, List.take_append_drop]
      · rw [List.length_drop]
        have h1 : (a + 1) * cs = a * cs + cs := Nat.succ_mul _ _
        omega

theorem writeTr_aligned (cs : Nat) (hcs : 0 < cs) (s : Store) (cursor : Nat)
    (hal : cursor / cs * cs = cursor) (data : List Byte) :
    writeTr cs s cursor data =
      .ok (writeChunksLoop cs data ((data.length + cs - 1) / cs) 0 s cursor (cursor / cs)) := by
  have h0 : ¬ (cs = 0) := Nat.pos_iff_ne_zero.mp hcs
  rw [writeTr.eq_def, dif_neg h0]
  rw [if_pos hal]

theorem readChunk_mkBlob_none (chunkSize : Nat) (hcs : 0 < chunkSize) (B : List Byte) :
    readChunk chunkSize (mkBlob chunkSize B) 0 none = (B, B.length) := by
  simp only [readChunk]
  have hf : (mkBlob chunkSize B).filter (fun e => decide (0 / chunkSize ≤ e.1))
      = mkBlob chunkSize B := by
    apply List.filter_eq_self.mpr
    intro e he
    simp [Nat.zero_div]
  rw [hf]
  have h := readLoop_mkChunks_none chunkSize hcs ((B.length + chunkSize - 1) / chunkSize)
    0 B [] rfl
  simpa [mkBlob] using h

/-- **C1** (round-trip): for every byte sequence `B` and every positive
`chunk_size`, writing `B` with a fresh writer (cursor 0) into an empty blob
succeeds, leaves the cursor at `len(B)`, and a fresh reader (cursor 0) with
no size limit then returns exactly `B` and ends with its cursor at `len(B)`. -/
theorem write_then_read_roundtrip (chunkSize : Nat) (hcs : 0 < chunkSize) (B : List Byte) :
    ∃ S : Store,
      BlobWriter.write chunkSize [] freshHandle B =
        (S, { cursor := B.length, closed := false }, none) ∧
      BlobReader.read chunkSize S freshHandle none =
        ({ cursor := B.length, closed := false }, .ok B) := by
  have hwtr : writeTr chunkSize [] 0 B = .ok (mkBlob chunkSize B, B.length) := by
    have hal : 0 / chunkSize * chunkSize = 0 := by simp
    rw [writeTr_aligned chunkSize hcs [] 0 hal B]
    rw [writeChunksLoop_eq chunkSize B ((B.length + chunkSize - 1) / chunkSize) 0 [] 0
      (0 / chunkSize) (by intro e he; simp at he)]
    have hmin : min ((B.length + chunkSize - 1) / chunkSize * chunkSize) B.length
        = B.length := Nat.min_eq_right (ceil_mul_ge chunkSize B.length hcs)
    simp [Nat.zero_div, mkBlob, hmin]
  refine ⟨mkBlob chunkSize B, ?_, ?_⟩
  · simp [BlobWriter.write, freshHandle, hwtr]
  · simp [BlobReader.read, freshHandle, readChunk_mkBlob_none chunkSize hcs B]

/-- Witness for `write_then_read_roundtrip` at `chunk_size = 4`,
`B = "abcdefg"` (the test vector of `tests/test_blob.py`). -/
theorem write_then_read_roundtrip_witness :
    0 < 4 ∧
      ∃ S : Store,
        BlobWriter.write 4 [] freshHandle [97, 98, 99, 100, 101, 102, 103] =
          (S, { cursor := 7, closed := false }, none) ∧
        BlobReader.read 4 S freshHandle none =
          ({ cursor := 7, closed := false }, .ok [97, 98, 99, 100, 101, 102, 103]) :=
  ⟨by decide, write_then_read_roundtrip 4 (by decide) [97, 98, 99, 100, 101, 102, 103]⟩

/-- **C3 counterexample**: a zero-length write at a non-chunk-aligned cursor
is not a no-op.  With `chunk_size = 4`, a stored chunk `"abcd"` and cursor 2,
`write(b"")` takes the boundary-merge branch and rewrites chunk 0 to
`"abcd"[0:2] + b"" = "ab"`, truncating it from 4 bytes to 2 (the cursor is
returned unchanged). -/
theorem write_empty_truncates_cex :
    BlobWriter.write 4 [(0, [97, 98, 99, 100])] { cursor := 2, closed := false } [] =
      ([(0, [97, 98])], { cursor := 2, closed := false }, none) ∧
    (BlobWriter.write 4 [(0, [97, 98, 99, 100])] { cursor := 2, closed := false } []).1 ≠
      [(0, [97, 98, 99, 100])] := by
  have hw : BlobWriter.write 4 [(0, [97, 98, 99, 100])] { cursor := 2, closed := false } [] =
      ([(0, [97, 98])], { cursor := 2, closed := false }, none) := by
    simp [BlobWriter.write, writeTr, storeGet, storeSet]
  exact ⟨hw, by rw [hw]; decide⟩

/-- **C3 (amended)**: a zero-length write at a *chunk-aligned* cursor is a
no-op: it leaves every stored chunk unchanged and returns the unchanged
cursor.  (At a non-aligned cursor the boundary merge runs instead: it
requires the chunk at the cursor's index to be present and rewrites it to its
first `cursor mod chunk_size` bytes, possibly truncating it.) -/
theorem write_empty_aligned_noop (chunkSize : Nat) (hcs : 0 < chunkSize) (s : Store)
    (h : Handle) (hcl : h.closed = false) (hal : h.cursor % chunkSize = 0) :
    BlobWriter.write chunkSize s h [] = (s, h, none) := by
  obtain ⟨c, cl⟩ := h
  simp only at hcl hal
  subst hcl
  have hal' : c / chunkSize * chunkSize = c := by
    have hmod := Nat.div_add_mod c chunkSize
    have hcomm : c / chunkSize * chunkSize = chunkSize * (c / chunkSize) := Nat.mul_comm _ _
    omega
  have hw := writeTr_aligned chunkSize hcs s c hal' []
  have hch : (([] : List Byte).length + chunkSize - 1) / chunkSize = 0 := by
    simp only [List.length_nil, Nat.zero_add]
    exact Nat.div_eq_of_lt (by omega)
  rw [hch] at hw
  simp only [writeChunksLoop] at hw
  simp [BlobWriter.write, hw]

/-- Witness for `write_empty_aligned_noop`: `chunk_size = 4`, one stored
chunk, cursor 4 (aligned), open handle. -/
theorem write_empty_aligned_noop_witness :
    (0 < 4 ∧ ({ cursor := 4, closed := false } : Handle).closed = false ∧ 4 % 4 = 0) ∧
    BlobWriter.write 4 [(0, [97, 98, 99, 100])] { cursor := 4, closed := false } [] =
      ([(0, [97, 98, 99, 100])], { cursor := 4, closed := false }, none) :=
  ⟨⟨by decide, rfl, by decide⟩,
    write_empty_aligned_noop 4 (by decide) [(0, [97, 98, 99, 100])]
      { cursor := 4, closed := false } rfl (by decide)⟩

/-- **C7**: seek resolves the candidate offset as `delta` for `SEEK_SET` (0),
`current + delta` for `SEEK_CUR` (1) and `size() + delta` for `SEEK_END` (2),
clamps it into `[0, size()]` via `min(max(candidate, 0), size)`, and for any
other whence value fails with `NotImplementedError`, leaving the cursor
unchanged. -/
theorem seek_spec (chunkSize : Nat) (s : Store) (h : Handle) (hcl : h.closed = false)
    (delta : Int) :
    (BlobIOBase.seek chunkSize s h delta 0 =
      ({ h with cursor :=
        (min (max delta 0) ((getSize chunkSize s : Nat) : Int)).toNat }, none)) ∧
    (BlobIOBase.seek chunkSize s h delta 1 =
      ({ h with cursor :=
        (min (max ((h.cursor : Int) + delta) 0) ((getSize chunkSize s : Nat) : Int)).toNat },
        none)) ∧
    (BlobIOBase.seek chunkSize s h delta 2 =
      ({ h with cursor :=
        (min (max (((getSize chunkSize s : Nat) : Int) + delta) 0)
          ((getSize chunkSize s : Nat) : Int)).toNat }, none)) ∧
    (∀ whence : Nat, whence ≠ 0 → whence ≠ 1 → whence ≠ 2 →
      BlobIOBase.seek chunkSize s h delta whence = (h, some "NotImplementedError")) := by
  refine ⟨?_, ?_, ?_, ?_⟩
  · simp [BlobIOBase.seek, seekTr, hcl, pure, Except.pure, Bind.bind, Except.bind]
  · simp [BlobIOBase.seek, seekTr, hcl, pure, Except.pure, Bind.bind, Except.bind]
  · simp [BlobIOBase.seek, seekTr, hcl, pure, Except.pure, Bind.bind, Except.bind]
  · intro whence h1 h2 h3
    rcases whence with _ | _ | _ | w
    · exact absurd rfl h1
    · exact absurd rfl h2
    · exact absurd rfl h3
    · simp [BlobIOBase.seek, seekTr, hcl, throw, throwThe, MonadExceptOf.throw, Functor.map,
        Except.map]

/-- Witness for `seek_spec`: size 3 blob, open handle at cursor 3; `SEEK_SET`
with delta 5 clamps to 3, and whence 3 fails leaving the cursor unchanged. -/
theorem seek_spec_witness :
    BlobIOBase.seek 4 [(0, [1, 2, 3])] { cursor := 3, closed := false } 5 0 =
      ({ cursor := 3, closed := false }, none) ∧
    BlobIOBase.seek 4 [(0, [1, 2, 3])] { cursor := 3, closed := false } 5 3 =
      ({ cursor := 3, closed := false }, some "NotImplementedError") := by
  have h := seek_spec 4 [(0, [1, 2, 3])] { cursor := 3, closed := false } rfl 5
  exact ⟨by simpa using h.1, h.2.2.2 3 (by decide) (by decide) (by decide)⟩

/-- **C8**: a non-chunk-aligned write whose cursor chunk is absent from the
store fails with the fatal missing-chunk assertion (`'Do not support missing
chunk yet'`); the transaction aborts, so the store and the cursor are
unchanged. -/
theorem write_missing_chunk_error (chunkSize : Nat) (hcs : 0 < chunkSize) (s : Store)
    (h : Handle) (hcl : h.closed = false) (hal : h.cursor % chunkSize ≠ 0)
    (hmiss : storeGet s (h.cursor / chunkSize) = none) (data : List Byte) :
    BlobWriter.write chunkSize s h data = (s, h, some "Do not support missing chunk yet") := by
  have h0 : ¬ (chunkSize = 0) := Nat.pos_iff_ne_zero.mp hcs
  have hne : ¬ (h.cursor / chunkSize * chunkSize = h.cursor) := by
    have hmod := Nat.div_add_mod h.cursor chunkSize
    have hcomm : h.cursor / chunkSize * chunkSize = chunkSize * (h.cursor / chunkSize) :=
      Nat.mul_comm _ _
    omega
  have hw : writeTr chunkSize s h.cursor data = .error "Do not support missing chunk yet" := by
    rw [writeTr.eq_def, dif_neg h0, if_neg hne, hmiss]
  simp [BlobWriter.write, hcl, hw]

/-- Witness for `write_missing_chunk_error`: empty store, cursor 2,
`chunk_size = 4`, writing one byte. -/
theorem write_missing_chunk_error_witness :
    (0 < 4 ∧ ({ cursor := 2, closed := false } : Handle).closed = false ∧ 2 % 4 ≠ 0 ∧
      storeGet [] (2 / 4) = none) ∧
    BlobWriter.write 4 [] { cursor := 2, closed := false } [1] =
      ([], { cursor := 2, closed := false }, some "Do not support missing chunk yet") :=
  ⟨⟨by decide, rfl, by decide, rfl⟩,
    write_missing_chunk_error 4 (by decide) [] { cursor := 2, closed := false } rfl
      (by decide) rfl [1]⟩

/-- **C9 counterexample**: `tell` on a closed handle does not fail: the
source's `tell` has no closed check and returns the cursor, here `.ok 5`,
while `read` on the same closed handle does fail with the closed-handle
error.  This refutes the claim that *every* operation (including `tell`)
fails after `close()`. -/
theorem tell_after_close_cex :
    BlobIOBase.tell (BlobIOBase.close { cursor := 5, closed := false }) = .ok 5 ∧
    (BlobReader.read 4 [] (BlobIOBase.close { cursor := 5, closed := false }) none).2 =
      .error "Can not access closed blob" := by
  constructor
  · rfl
  · rfl

/-- **C9 (amended)**: after `close()`, `read`, `write` and `seek` fail
immediately with the closed-handle error and change nothing, while `tell`
succeeds and returns the cursor (the source's `tell` performs no closed
check). -/
theorem closed_handle_ops (chunkSize : Nat) (s : Store) (h : Handle) (hcl : h.closed = true)
    (size : Option Nat) (data : List Byte) (delta : Int) (whence : Nat) :
    BlobReader.read chunkSize s h size = (h, .error "Can not access closed blob") ∧
    BlobWriter.write chunkSize s h data = (s, h, some "Can not access closed blob") ∧
    BlobIOBase.seek chunkSize s h delta whence = (h, some "Can not access closed blob") ∧
    BlobIOBase.tell h = .ok h.cursor := by
  refine ⟨?_, ?_, ?_, rfl⟩
  · simp [BlobReader.read, hcl]
  · simp [BlobWriter.write, hcl]
  · simp [BlobIOBase.seek, hcl]

/-- Witness for `closed_handle_ops` on a concrete closed handle. -/
theorem closed_handle_ops_witness :
    ({ cursor := 7, closed := true } : Handle).closed = true ∧
    (BlobReader.read 4 [] { cursor := 7, closed := true } none =
      ({ cursor := 7, closed := true }, .error "Can not access closed blob") ∧
    BlobWriter.write 4 [] { cursor := 7, closed := true } [1] =
      ([], { cursor := 7, closed := true }, some "Can not access closed blob") ∧
    BlobIOBase.seek 4 [] { cursor := 7, closed := true } 0 0 =
      ({ cursor := 7, closed := true }, some "Can not access closed blob") ∧
    BlobIOBase.tell { cursor := 7, closed := true } = .ok 7) :=
  ⟨rfl, closed_handle_ops 4 [] { cursor := 7, closed := true } rfl none [1] 0 0⟩

theorem writeChunksLoop_storeGet_lt (cs : Nat) (data : List Byte) :
    ∀ (n i : Nat) (s : Store) (cursor ci k : Nat), k < ci →
      storeGet (writeChunksLoop cs data n i s cursor ci).1 k = storeGet s k := by
  intro n
  induction n with
  | zero =>
    intro i s cursor ci k hk
    rfl
  | succ n ih =>
    intro i s cursor ci k hk
    simp only [writeChunksLoop]
    rw [ih (i + 1) _ _ (ci + 1) k (Nat.lt_succ_of_lt hk)]
    exact storeGet_storeSet_ne s ci k _ (by omega)

/-- **C4 counterexample**: with `chunk_size = 4`, chunks `{0: "abcd", 1:
"efgh"}` and cursor 1, writing the single byte `"x"` stores `[97, 120]`
(`"ax"`) as chunk 0.  Its length 2 is less than `chunk_size` although the
chunk was previously full (length 4 = `chunk_size`), refuting the "only if
the input is shorter than the remaining space AND the chunk was previously
shorter" condition; and chunk 0, which is not the highest-indexed chunk, got
shorter than its previous length, refuting "never produces a chunk shorter
than its previous length except at the true end of the blob". -/
theorem boundary_merge_shortens_cex :
    (BlobWriter.write 4 [(0, [97, 98, 99, 100]), (1, [101, 102, 103, 104])]
        { cursor := 1, closed := false } [120]).1 =
      [(0, [97, 120]), (1, [101, 102, 103, 104])] ∧
    storeGet [(0, [97, 98, 99, 100]), (1, [101, 102, 103, 104])] 0 = some [97, 98, 99, 100] ∧
    ([97, 120] : Chunk).length < 4 ∧ ¬ (([97, 98, 99, 100] : Chunk).length < 4) ∧
    ([120] : List Byte).length < 4 - 1 % 4 := by
  refine ⟨?_, rfl, by decide, by decide, by decide⟩
  simp [BlobWriter.write, writeTr, storeGet, storeSet]

/-- **C4 (amended)**: in a non-chunk-aligned write whose existing chunk
covers the in-chunk offset (as in every well-formed blob), the write
succeeds and the value finally stored for the first chunk touched is
`prev[0:off] + data[0:chunk_size-off]` with `off = cursor mod chunk_size`;
its length is less than `chunk_size` if and only if the input is shorter
than the remaining space `chunk_size - off` of that chunk — regardless of
the chunk's previous length, so the merge may shorten a chunk below its
previous length even away from the end of the blob. -/
theorem boundary_merge_first_chunk (chunkSize : Nat) (hcs : 0 < chunkSize) (s : Store)
    (cursor : Nat) (data : List Byte) (prev : Chunk)
    (hal : cursor % chunkSize ≠ 0)
    (hprev : storeGet s (cursor / chunkSize) = some prev)
    (hoff : cursor % chunkSize ≤ prev.length) :
    ∃ r : Store × Nat,
      writeTr chunkSize s cursor data = .ok r ∧
      storeGet r.1 (cursor / chunkSize) =
        some (prev.take (cursor % chunkSize) ++
          data.take (chunkSize - cursor % chunkSize)) ∧
      ((prev.take (cursor % chunkSize) ++
          data.take (chunkSize - cursor % chunkSize)).length < chunkSize ↔
        data.length < chunkSize - cursor % chunkSize) := by
  have h0 : ¬ (chunkSize = 0) := Nat.pos_iff_ne_zero.mp hcs
  have hmod := Nat.div_add_mod cursor chunkSize
  have hcomm : cursor / chunkSize * chunkSize = chunkSize * (cursor / chunkSize) :=
    Nat.mul_comm _ _
  have hlt : cursor % chunkSize < chunkSize := Nat.mod_lt _ hcs
  have hne : ¬ (cursor / chunkSize * chunkSize = cursor) := by omega
  rw [writeTr.eq_def, dif_neg h0, if_neg hne, hprev]
  simp only []
  have e1 : cursor - cursor / chunkSize * chunkSize = cursor % chunkSize := by omega
  have e2 : cursor / chunkSize * chunkSize + chunkSize - cursor
      = chunkSize - cursor % chunkSize := by omega
  rw [e1, e2]
  have hlen : (prev.take (cursor % chunkSize) ++
      data.take (chunkSize - cursor % chunkSize)).length =
      cursor % chunkSize + min (chunkSize - cursor % chunkSize) data.length := by
    rw [List.length_append, List.length_take, List.length_take, Nat.min_eq_left hoff]
  by_cases hb : (data.drop (chunkSize - cursor % chunkSize)).length = 0
  · rw [dif_pos hb]
    refine ⟨_, rfl, ?_, ?_⟩
    · exact storeGet_storeSet_self s _ _
    · rw [List.length_drop] at hb
      omega
  · have hb' : data.length - (chunkSize - cursor % chunkSize) ≠ 0 := by
      rw [List.length_drop] at hb
      exact hb
    have hfull : (prev.take (cursor % chunkSize) ++
        data.take (chunkSize - cursor % chunkSize)).length = chunkSize := by
      omega
    rw [dif_neg hb, if_pos hfull]
    have hdiv : (cursor / chunkSize * chunkSize + chunkSize) / chunkSize
        = cursor / chunkSize + 1 := by
      rw [Nat.add_div_right _ hcs, Nat.mul_div_cancel _ hcs]
    have halign : (cursor / chunkSize * chunkSize + chunkSize) / chunkSize * chunkSize
        = cursor / chunkSize * chunkSize + chunkSize := by
      rw [hdiv, Nat.succ_mul]
    rw [writeTr_aligned chunkSize hcs _ _ halign _]
    refine ⟨_, rfl, ?_, ?_⟩
    · rw [hdiv, writeChunksLoop_storeGet_lt chunkSize _ _ 0 _ _ _ _ (Nat.lt_succ_self _)]
      exact storeGet_storeSet_self s _ _
    · omega

/-- Witness for `boundary_merge_first_chunk`: `chunk_size = 4`, chunks
`{0: "abcd", 1: "efgh"}`, cursor 1, input `"x"`. -/
theorem boundary_merge_first_chunk_witness :
    (0 < 4 ∧ 1 % 4 ≠ 0 ∧
      storeGet [(0, [97, 98, 99, 100]), (1, [101, 102, 103, 104])] (1 / 4) =
        some [97, 98, 99, 100] ∧
      1 % 4 ≤ ([97, 98, 99, 100] : Chunk).length) ∧
    ∃ r : Store × Nat,
      writeTr 4 [(0, [97, 98, 99, 100]), (1, [101, 102, 103, 104])] 1 [120] = .ok r ∧
      storeGet r.1 (1 / 4) =
        some (([97, 98, 99, 100] : Chunk).take (1 % 4) ++
          ([120] : List Byte).take (4 - 1 % 4)) ∧
      ((([97, 98, 99, 100] : Chunk).take (1 % 4) ++
          ([120] : List Byte).take (4 - 1 % 4)).length < 4 ↔
        ([120] : List Byte).length < 4 - 1 % 4) :=
  ⟨⟨by decide, by decide, rfl, by decide⟩,
    boundary_merge_first_chunk 4 (by decide) [(0, [97, 98, 99, 100]), (1, [101, 102, 103, 104])]
      1 [120] [97, 98, 99, 100] (by decide) rfl (by decide)⟩

/-! ### C5: size resolution on sorted stores -/

theorem maxIndex_cons (a : Nat × Chunk) (l : Store) :
    maxIndex (a :: l) = max a.1 (maxIndex l) := rfl

theorem maxIndex_getLast (s : Store) (hs : SortedStore s) (hne : s ≠ []) :
    ∃ v : Chunk, s.getLast? = some (maxIndex s, v) ∧ storeGet s (maxIndex s) = some v := by
  induction s with
  | nil => exact absurd rfl hne
  | cons a rest ih =>
    obtain ⟨ak, av⟩ := a
    match rest, hs with
    | [], _ =>
      refine ⟨av, ?_, ?_⟩
      · simp [maxIndex_cons, maxIndex]
      · simp [maxIndex_cons, maxIndex, storeGet]
    | b :: rest', hs =>
      have hs' : SortedStore (b :: rest') := (List.pairwise_cons.mp hs).2
      have hlt : ∀ x ∈ b :: rest', (ak, av).1 < x.1 := (List.pairwise_cons.mp hs).1
      obtain ⟨v, hlast, hget⟩ := ih hs' (by simp)
      have hmax : maxIndex (b :: rest') ≥ b.1 := by
        rw [maxIndex_cons]
        exact Nat.le_max_left _ _
      have hak : ak < maxIndex (b :: rest') := by
        have := hlt b (List.mem_cons_self _ _)
        omega
      have hM : maxIndex ((ak, av) :: b :: rest') = maxIndex (b :: rest') := by
        rw [maxIndex_cons]
        omega
      refine ⟨v, ?_, ?_⟩
      · rw [hM, List.getLast?_cons_cons, hlast]
      · rw [hM]
        simp only [storeGet, if_neg (by omega : ¬ (maxIndex (b :: rest') = ak))]
        exact hget

/-- **C5**: for every (key-ordered) blob state, `size()` returns 0 when the
blob has no chunks, and otherwise `highest_chunk_index * chunk_size +
len(highest chunk value)`.  The size resolver is a pure read (the embedding
of `_get_size` takes the store and returns only a number, mirroring that the
source only issues a bounded `get_range`). -/
theorem getSize_spec (chunkSize : Nat) (s : Store) (hs : SortedStore s) :
    (s = [] → getSize chunkSize s = 0) ∧
    (s ≠ [] → ∃ v : Chunk, storeGet s (maxIndex s) = some v ∧
      getSize chunkSize s = maxIndex s * chunkSize + v.length) := by
  constructor
  · intro h
    subst h
    rfl
  · intro hne
    obtain ⟨v, hlast, hget⟩ := maxIndex_getLast s hs hne
    refine ⟨v, hget, ?_⟩
    simp [getSize, hlast]

/-- Witness for `getSize_spec`: two chunks, `chunk_size = 4`. -/
theorem getSize_spec_witness :
    SortedStore [(0, [10, 11, 12, 13]), (1, [14])] ∧
    ((([(0, [10, 11, 12, 13]), (1, [14])] : Store) = [] →
        getSize 4 [(0, [10, 11, 12, 13]), (1, [14])] = 0) ∧
      (([(0, [10, 11, 12, 13]), (1, [14])] : Store) ≠ [] → ∃ v : Chunk,
        storeGet [(0, [10, 11, 12, 13]), (1, [14])]
          (maxIndex [(0, [10, 11, 12, 13]), (1, [14])]) = some v ∧
        getSize 4 [(0, [10, 11, 12, 13]), (1, [14])] =
          maxIndex [(0, [10, 11, 12, 13]), (1, [14])] * 4 + v.length)) :=
  ⟨by unfold SortedStore; decide,
    getSize_spec 4 [(0, [10, 11, 12, 13]), (1, [14])] (by unfold SortedStore; decide)⟩

/-! ### C2: chunk-length invariants under reachable states -/

theorem chunkSizesOk_storeSet {cs : Nat} {s : Store} {k : Nat} {v : Chunk}
    (h : chunkSizesOk cs s) (hv1 : 0 < v.length) (hv2 : v.length ≤ cs) :
    chunkSizesOk cs (storeSet s k v) := by
  intro e he
  rcases mem_storeSet he with rfl | he'
  · exact ⟨hv1, hv2⟩
  · exact h e he'

theorem writeChunksLoop_sizesOk (cs : Nat) (hcs : 0 < cs) (data : List Byte) :
    ∀ (n i : Nat) (s : Store) (cursor ci : Nat),
      chunkSizesOk cs s → (∀ j, j < n → (i + j) * cs < data.length) →
      chunkSizesOk cs (writeChunksLoop cs data n i s cursor ci).1 := by
  intro n
  induction n with
  | zero =>
    intro i s cursor ci hok hj
    exact hok
  | succ n ih =>
    intro i s cursor ci hok hj
    simp only [writeChunksLoop]
    apply ih (i + 1)
    · apply chunkSizesOk_storeSet hok
      · have h0 := hj 0 (Nat.succ_pos n)
        rw [Nat.add_zero] at h0
        rw [List.length_take, List.length_drop]
        omega
      · rw [List.length_take, List.length_drop]
        omega
    · intro j hjn
      have h1 := hj (j + 1) (by omega)
      have he : i + (j + 1) = i + 1 + j := by omega
      rw [he] at h1
      exact h1

theorem writeTr_sizesOk (cs : Nat) (hcs : 0 < cs) :
    ∀ (N : Nat) (s : Store) (cursor : Nat) (data : List Byte), data.length < N →
      chunkSizesOk cs s → ∀ r, writeTr cs s cursor data = .ok r → chunkSizesOk cs r.1 := by
  intro N
  induction N with
  | zero =>
    intro s cursor data hlen
    omega
  | succ N ih =>
    intro s cursor data hlen hok r hr
    have h0 : ¬ (cs = 0) := Nat.pos_iff_ne_zero.mp hcs
    rw [writeTr.eq_def, dif_neg h0] at hr
    by_cases hal : cursor / cs * cs = cursor
    · rw [if_pos hal] at hr
      have hinj := Except.ok.inj hr
      subst hinj
      apply writeChunksLoop_sizesOk cs hcs data _ 0 s cursor _ hok
      intro j hj
      rw [Nat.zero_add]
      exact lt_ceil_mul cs data.length j hcs hj
    · rw [if_neg hal] at hr
      cases hget : storeGet s (cursor / cs) with
      | none =>
        rw [hget] at hr
        simp at hr
      | some prev =>
        rw [hget] at hr
        simp only [] at hr
        have hmod := Nat.div_add_mod cursor cs
        have hcomm : cursor / cs * cs = cs * (cursor / cs) := Nat.mul_comm _ _
        have hmlt : cursor % cs < cs := Nat.mod_lt _ hcs
        have hprev_ok := hok _ (storeGet_mem hget)
        have hp1 : 0 < prev.length := hprev_ok.1
        have hp2 : prev.length ≤ cs := hprev_ok.2
        have hok' : chunkSizesOk cs (storeSet s (cursor / cs)
            (prev.take (cursor - cursor / cs * cs) ++
              data.take (cursor / cs * cs + cs - cursor))) := by
          apply chunkSizesOk_storeSet hok
          · rw [List.length_append, List.length_take, List.length_take]
            omega
          · rw [List.length_append, List.length_take, List.length_take]
            omega
        split at hr
        · have hinj := Except.ok.inj hr
          subst hinj
          exact hok'
        · next hbn =>
          apply ih _ _ _ ?_ hok' r hr
          rw [List.length_drop] at hbn ⊢
          omega

/-- **C2 counterexample**: with `chunk_size = 4`, the operation sequence
`write(b"abcdefgh"); seek(1, SEEK_SET); write(b"x")` on an initially empty
blob reaches the state `{0: [97, 120], 1: [101, 102, 103, 104]}` with cursor
2: chunk 0 is not the highest-indexed chunk but has length 2, not
`chunk_size` — the claimed invariant fails in a reachable state. -/
theorem chunk_len_invariant_cex :
    runOps 4 ([], 0)
        [.write [97, 98, 99, 100, 101, 102, 103, 104], .seek 1 0, .write [120]] =
      some ([(0, [97, 120]), (1, [101, 102, 103, 104])], 2) ∧
    chunkLenSpec 4 [(0, [97, 120]), (1, [101, 102, 103, 104])] = false := by
  constructor
  · simp [runOps, runOp, writeTr, writeChunksLoop, storeSet, storeGet, seekTr, getSize,
      pure, Except.pure, Bind.bind, Except.bind]
  · decide

/-- **C2 (amended)**: in every blob state reachable from the empty blob by
any sequence of successful write and seek operations, every stored chunk has
value length in `(0, chunk_size]`.  (The stronger claimed invariant — all
chunks except the highest-indexed one full — is refuted by
a reachable state in which a boundary merge truncated a non-final chunk.) -/
theorem reachable_chunkSizesOk (chunkSize : Nat) (hcs : 0 < chunkSize)
    (st : Store × Nat) (hr : ReachableState chunkSize st) :
    chunkSizesOk chunkSize st.1 := by
  obtain ⟨ops, hops⟩ := hr
  have main : ∀ (ops : List Op) (st0 st1 : Store × Nat), chunkSizesOk chunkSize st0.1 →
      runOps chunkSize st0 ops = some st1 → chunkSizesOk chunkSize st1.1 := by
    intro ops
    induction ops with
    | nil =>
      intro st0 st1 h0 hrun
      simp only [runOps, Option.some.injEq] at hrun
      subst hrun
      exact h0
    | cons op rest ih =>
      intro st0 st1 h0 hrun
      simp only [runOps] at hrun
      cases hop : runOp chunkSize st0 op with
      | none =>
        rw [hop] at hrun
        simp at hrun
      | some stm =>
        rw [hop] at hrun
        apply ih stm st1 ?_ hrun
        cases op with
        | write d =>
          simp only [runOp] at hop
          cases hw : writeTr chunkSize st0.1 st0.2 d with
          | error e =>
            rw [hw] at hop
            simp at hop
          | ok r =>
            rw [hw] at hop
            simp only [Option.some.injEq] at hop
            subst hop
            exact writeTr_sizesOk chunkSize hcs (d.length + 1) st0.1 st0.2 d
              (by omega) h0 r hw
        | seek c w =>
          simp only [runOp] at hop
          cases hs : seekTr chunkSize st0.1 st0.2 c w with
          | error e =>
            rw [hs] at hop
            simp at hop
          | ok c' =>
            rw [hs] at hop
            simp only [Option.some.injEq] at hop
            subst hop
            exact h0
  exact main ops ([], 0) st (by intro e he; exact absurd he (List.not_mem_nil e)) hops

/-- Witness for `reachable_chunkSizesOk`: the state reached by the
counterexample operation sequence satisfies the amended invariant. -/
theorem reachable_chunkSizesOk_witness :
    (0 < 4 ∧ ReachableState 4 ([(0, [97, 120]), (1, [101, 102, 103, 104])], 2)) ∧
    chunkSizesOk 4 [(0, [97, 120]), (1, [101, 102, 103, 104])] := by
  have hreach : ReachableState 4 ([(0, [97, 120]), (1, [101, 102, 103, 104])], 2) :=
    ⟨[.write [97, 98, 99, 100, 101, 102, 103, 104], .seek 1 0, .write [120]], by
      simp [runOps, runOp, writeTr, writeChunksLoop, storeSet, storeGet, seekTr, getSize,
        pure, Except.pure, Bind.bind, Except.bind]⟩
  exact ⟨⟨by decide, hreach⟩,
    reachable_chunkSizesOk 4 (by decide) ([(0, [97, 120]), (1, [101, 102, 103, 104])], 2) hreach⟩

/-! ### Filtering a well-formed chunk layout by key range -/

theorem filter_ge_mkChunks_all (cs : Nat) :
    ∀ (n a lo : Nat) (d : List Byte), lo ≤ a →
      (mkChunks cs n a d).filter (fun e => decide (lo ≤ e.1)) = mkChunks cs n a d := by
  intro n
  induction n with
  | zero =>
    intro a lo d h
    rfl
  | succ n ih =>
    intro a lo d h
    simp only [mkChunks, List.filter_cons]
    rw [if_pos (by simpa using h), ih (a + 1) lo (d.drop cs) (by omega)]

theorem filter_ge_mkChunks (cs : Nat) :
    ∀ (n a lo : Nat) (d : List Byte), a ≤ lo →
      (mkChunks cs n a d).filter (fun e => decide (lo ≤ e.1)) =
        mkChunks cs (n - (lo - a)) lo (d.drop ((lo - a) * cs)) := by
  intro n
  induction n with
  | zero =>
    intro a lo d h
    simp [mkChunks]
  | succ n ih =>
    intro a lo d h
    by_cases hla : lo ≤ a
    · have hea : a = lo := by omega
      subst hea
      rw [filter_ge_mkChunks_all cs (n + 1) a a d (Nat.le_refl _)]
      simp [Nat.sub_self]
    · simp only [mkChunks, List.filter_cons]
      rw [if_neg (by simpa using hla), ih (a + 1) lo (d.drop cs) (by omega)]
      have h3 : (lo - a) * cs = (lo - (a + 1)) * cs + cs := by
        rw [show lo - a = (lo - (a + 1)) + 1 from by omega, Nat.succ_mul]
      have e1 : n - (lo - (a + 1)) = n + 1 - (lo - a) := by omega
      have e2 : (d.drop cs).drop ((lo - (a + 1)) * cs) = d.drop ((lo - a) * cs) := by
        rw [List.drop_drop, h3]
        congr 1
        omega
      rw [e1, e2]

theorem filter_le_mkChunks (cs : Nat) :
    ∀ (n a hi : Nat) (d : List Byte),
      (mkChunks cs n a d).filter (fun e => decide (e.1 ≤ hi)) =
        mkChunks cs (min n (hi + 1 - a)) a d := by
  intro n
  induction n with
  | zero =>
    intro a hi d
    simp [mkChunks]
  | succ n ih =>
    intro a hi d
    simp only [mkChunks, List.filter_cons]
    by_cases hle : a ≤ hi
    · rw [if_pos (by simpa using hle), ih (a + 1) hi (d.drop cs)]
      have e1 : min (n + 1) (hi + 1 - a) = min n (hi + 1 - (a + 1)) + 1 := by omega
      rw [e1]
      simp only [mkChunks]
    · rw [if_neg (by simpa using hle), ih (a + 1) hi (d.drop cs)]
      have e1 : min n (hi + 1 - (a + 1)) = 0 := by omega
      have e2 : min (n + 1) (hi + 1 - a) = 0 := by omega
      rw [e1, e2]
      rfl

theorem filter_and_split (lo hi : Nat) (l : Store) :
    l.filter (fun e => decide (lo ≤ e.1 ∧ e.1 ≤ hi)) =
      (l.filter (fun e => decide (lo ≤ e.1))).filter (fun e => decide (e.1 ≤ hi)) := by
  rw [List.filter_filter]
  apply List.filter_congr
  intro e he
  simp [Bool.and_comm]

/-! ### C10: reads with size 0 -/

theorem readLoop_mkChunks_zero (cs : Nat) :
    ∀ (m a cursor : Nat) (d buf : List Byte),
      a * cs ≤ cursor → (m = 0 → d = []) →
      readLoop cs (mkChunks cs m a d) cursor (some 0) buf =
        (buf ++ (d.take cs).drop (cursor - a * cs),
          cursor + ((d.take cs).drop (cursor - a * cs)).length) := by
  intro m a cursor d buf h1 h2
  cases m with
  | zero =>
    have hd := h2 rfl
    subst hd
    simp [mkChunks, readLoop]
  | succ m =>
    simp only [mkChunks, readLoop, h1, if_true]

/-- **C10 counterexample**: with `chunk_size = 4` and the two-chunk blob
`"abcdefgh"`, `read(size=0)` from cursor 0 returns only the first chunk
`"abcd"` and leaves the cursor at 4, while `read()` (no size) returns all
eight bytes: size 0 is *not* treated the same as omitting the size (the
`size == 0` break fires after the first chunk containing the cursor). -/
theorem read_size_zero_cex :
    BlobReader.read 4 [(0, [97, 98, 99, 100]), (1, [101, 102, 103, 104])]
        { cursor := 0, closed := false } (some 0) =
      ({ cursor := 4, closed := false }, .ok [97, 98, 99, 100]) ∧
    BlobReader.read 4 [(0, [97, 98, 99, 100]), (1, [101, 102, 103, 104])]
        { cursor := 0, closed := false } none =
      ({ cursor := 8, closed := false }, .ok [97, 98, 99, 100, 101, 102, 103, 104]) ∧
    (BlobReader.read 4 [(0, [97, 98, 99, 100]), (1, [101, 102, 103, 104])]
        { cursor := 0, closed := false } (some 0)).2 ≠
      (BlobReader.read 4 [(0, [97, 98, 99, 100]), (1, [101, 102, 103, 104])]
        { cursor := 0, closed := false } none).2 := by
  refine ⟨rfl, rfl, ?_⟩
  intro h
  have h' : (Except.ok [97, 98, 99, 100] : Except String (List Byte)) =
      Except.ok [97, 98, 99, 100, 101, 102, 103, 104] := h
  exact absurd (Except.ok.inj h') (by decide)

/-- **C10 (amended)**: `read(size=0)` does not return the empty byte string,
but it is not equivalent to omitting the size either: the initial `if size:`
truthiness check treats 0 like `None` (unbounded scan, no truncation), yet the
`size == 0` break fires after the first chunk processed, so the call returns
exactly the bytes from the cursor to the end of the cursor's chunk (at most
`chunk_size - cursor mod chunk_size` bytes, empty only at end of blob) and
advances the cursor by that amount. -/
theorem read_size_zero (chunkSize : Nat) (hcs : 0 < chunkSize) (B : List Byte)
    (cursor : Nat) (hle : cursor ≤ B.length) :
    BlobReader.read chunkSize (mkBlob chunkSize B) { cursor := cursor, closed := false }
        (some 0) =
      ({ cursor := cursor +
            ((B.drop cursor).take (chunkSize - cursor % chunkSize)).length,
          closed := false },
        .ok ((B.drop cursor).take (chunkSize - cursor % chunkSize))) := by
  have hmod := Nat.div_add_mod cursor chunkSize
  have hcomm : cursor / chunkSize * chunkSize = chunkSize * (cursor / chunkSize) :=
    Nat.mul_comm _ _
  have hmlt : cursor % chunkSize < chunkSize := Nat.mod_lt _ hcs
  have hNcs : B.length ≤ (B.length + chunkSize - 1) / chunkSize * chunkSize :=
    ceil_mul_ge chunkSize B.length hcs
  have hlocs : cursor / chunkSize * chunkSize ≤ cursor := Nat.div_mul_le_self _ _
  have hrc : readChunk chunkSize (mkBlob chunkSize B) cursor (some 0) =
      ((B.drop cursor).take (chunkSize - cursor % chunkSize),
        cursor + ((B.drop cursor).take (chunkSize - cursor % chunkSize)).length) := by
    simp only [readChunk, mkBlob]
    rw [filter_ge_mkChunks chunkSize _ 0 (cursor / chunkSize) B (Nat.zero_le _)]
    simp only [Nat.sub_zero]
    rw [readLoop_mkChunks_zero chunkSize _ _ cursor _ [] hlocs ?hm0]
    case hm0 =>
      intro hz
      rw [List.drop_eq_nil_iff]
      have hN : (B.length + chunkSize - 1) / chunkSize ≤ cursor / chunkSize := by omega
      have hmul := Nat.mul_le_mul_right chunkSize hN
      omega
    have hslice : ((B.drop (cursor / chunkSize * chunkSize)).take chunkSize).drop
          (cursor - cursor / chunkSize * chunkSize) =
        (B.drop cursor).take (chunkSize - cursor % chunkSize) := by
      rw [List.drop_take, List.drop_drop]
      have e1 : cursor / chunkSize * chunkSize + (cursor - cursor / chunkSize * chunkSize)
          = cursor := by omega
      have e2 : chunkSize - (cursor - cursor / chunkSize * chunkSize)
          = chunkSize - cursor % chunkSize := by omega
      rw [e1, e2]
    rw [hslice, List.nil_append]
  simp [BlobReader.read, hrc]

/-- Witness for `read_size_zero`: `chunk_size = 4`, blob `"abcdefgh"`,
cursor 1: `read(0)` returns `"bcd"` (3 bytes, to the end of chunk 0) and
moves the cursor to 4. -/
theorem read_size_zero_witness :
    (0 < 4 ∧ 1 ≤ ([97, 98, 99, 100, 101, 102, 103, 104] : List Byte).length) ∧
    BlobReader.read 4 (mkBlob 4 [97, 98, 99, 100, 101, 102, 103, 104])
        { cursor := 1, closed := false } (some 0) =
      ({ cursor := 1 +
            ((([97, 98, 99, 100, 101, 102, 103, 104] : List Byte).drop 1).take (4 - 1 % 4)).length,
          closed := false },
        .ok ((([97, 98, 99, 100, 101, 102, 103, 104] : List Byte).drop 1).take (4 - 1 % 4))) :=
  ⟨⟨by decide, by decide⟩,
    read_size_zero 4 (by decide) [97, 98, 99, 100, 101, 102, 103, 104] 1 (by decide)⟩

/-! ### C6: boundary-exact reads -/

theorem readLoop_mkChunks_size (cs : Nat) (hcs : 0 < cs) :
    ∀ (m a cursor n : Nat) (d buf : List Byte),
      a * cs ≤ cursor → cursor - a * cs < cs →
      (cursor + (n + 1)) % cs = 0 → cursor + (n + 1) ≤ a * cs + d.length →
      cursor + (n + 1) ≤ (a + m) * cs →
      readLoop cs (mkChunks cs m a d) cursor (some (n + 1)) buf =
        (buf ++ (d.drop (cursor - a * cs)).take (n + 1), cursor + (n + 1)) := by
  intro m
  induction m with
  | zero =>
    intro a cursor n d buf h1 h2 h4 h5 h6
    exfalso
    simp only [Nat.add_zero] at h6
    omega
  | succ m ih =>
    intro a cursor n d buf h1 h2 h4 h5 h6
    simp only [mkChunks, readLoop, h1, if_true]
    have hclen : ((d.take cs).drop (cursor - a * cs)).length
        = min cs d.length - (cursor - a * cs) := by
      rw [List.length_drop, List.length_take]
    have hsm : (a + 1) * cs = a * cs + cs := Nat.succ_mul _ _
    by_cases hlt : n + 1 < ((d.take cs).drop (cursor - a * cs)).length
    · exfalso
      obtain ⟨k, hk⟩ := Nat.dvd_of_mod_eq_zero h4
      have hk' : cursor + (n + 1) = k * cs := by rw [hk, Nat.mul_comm]
      have hb1 : a * cs < k * cs := by omega
      have hb2 : k * cs < (a + 1) * cs := by omega
      have hak : a < k := lt_of_mul_lt_mul_right hb1 (Nat.zero_le cs)
      have hk2 : (a + 1) * cs ≤ k * cs := Nat.mul_le_mul_right cs (Nat.succ_le_of_lt hak)
      omega
    · rw [if_neg hlt]
      by_cases heq : n + 1 - ((d.take cs).drop (cursor - a * cs)).length = 0
      · rw [if_pos heq]
        have hchunk : (d.take cs).drop (cursor - a * cs)
            = (d.drop (cursor - a * cs)).take (n + 1) := by
          rw [List.drop_take]
          apply List.take_eq_take.mpr
          rw [List.length_drop]
          omega
        rw [hchunk]
        have hlen2 : ((d.drop (cursor - a * cs)).take (n + 1)).length = n + 1 := by
          rw [List.length_take, List.length_drop]
          omega
        rw [hlen2]
      · rw [if_neg heq]
        have hdge : cs ≤ d.length := by omega
        have hclen2 : ((d.take cs).drop (cursor - a * cs)).length
            = cs - (cursor - a * cs) := by omega
        rw [hclen2]
        have hcur : cursor + (cs - (cursor - a * cs)) = (a + 1) * cs := by omega
        obtain ⟨nn, hn2⟩ : ∃ nn, n + 1 - (cs - (cursor - a * cs)) = nn + 1 :=
          ⟨n - (cs - (cursor - a * cs)), by omega⟩
        rw [hcur, hn2]
        have hh4 : ((a + 1) * cs + (nn + 1)) % cs = 0 := by
          have he : (a + 1) * cs + (nn + 1) = cursor + (n + 1) := by omega
          rw [he]
          exact h4
        have hh5 : (a + 1) * cs + (nn + 1) ≤ (a + 1) * cs + (d.drop cs).length := by
          rw [List.length_drop]
          omega
        have hh6 : (a + 1) * cs + (nn + 1) ≤ (a + 1 + m) * cs := by
          have he : (a + 1) * cs + (nn + 1) = cursor + (n + 1) := by omega
          have he2 : (a + 1 + m) * cs = (a + (m + 1)) * cs := by
            congr 1
            omega
          omega
        rw [ih (a + 1) ((a + 1) * cs) nn (d.drop cs)
          (buf ++ (d.take cs).drop (cursor - a * cs)) (Nat.le_refl _) (by omega) hh4 hh5 hh6]
        rw [Nat.sub_self, List.drop_zero]
        rw [Prod.mk.injEq]
        constructor
        · rw [List.append_assoc]
          congr 1
          have hch : (d.take cs).drop (cursor - a * cs)
              = (d.drop (cursor - a * cs)).take (cs - (cursor - a * cs)) :=
            List.drop_take _ _ _
          have hdd : d.drop cs
              = (d.drop (cursor - a * cs)).drop (cs - (cursor - a * cs)) := by
            rw [List.drop_drop]
            congr 1
            omega
          rw [hch, hdd, ← List.take_add]
          congr 1
          omega
        · omega

/-- **C6**: a read of `size > 0` bytes whose end `cursor + size` lands
exactly on a chunk boundary, from a well-formed blob extending at least that
far, returns exactly the `size` bytes `B[cursor : cursor + size]` — it does
not include the first byte of the next chunk — and the returned byte count
is exactly `size`. -/
theorem read_boundary_exact (chunkSize : Nat) (hcs : 0 < chunkSize) (B : List Byte)
    (cursor sz : Nat) (hsz : 0 < sz) (hal : (cursor + sz) % chunkSize = 0)
    (hle : cursor + sz ≤ B.length) :
    BlobReader.read chunkSize (mkBlob chunkSize B) { cursor := cursor, closed := false }
        (some sz) =
      ({ cursor := cursor + sz, closed := false }, .ok ((B.drop cursor).take sz)) ∧
    ((B.drop cursor).take sz).length = sz := by
  obtain ⟨n, rfl⟩ : ∃ n, sz = n + 1 := ⟨sz - 1, by omega⟩
  have hmod := Nat.div_add_mod cursor chunkSize
  have hcomm : cursor / chunkSize * chunkSize = chunkSize * (cursor / chunkSize) :=
    Nat.mul_comm _ _
  have hmlt : cursor % chunkSize < chunkSize := Nat.mod_lt _ hcs
  have hlocs : cursor / chunkSize * chunkSize ≤ cursor := Nat.div_mul_le_self _ _
  have hNcs : B.length ≤ (B.length + chunkSize - 1) / chunkSize * chunkSize :=
    ceil_mul_ge chunkSize B.length hcs
  have hhics : (cursor + (n + 1)) / chunkSize * chunkSize = cursor + (n + 1) :=
    Nat.div_mul_cancel (Nat.dvd_of_mod_eq_zero hal)
  have hlohi : cursor / chunkSize ≤ (cursor + (n + 1)) / chunkSize :=
    Nat.div_le_div_right (by omega)
  have hloN : cursor / chunkSize ≤ (B.length + chunkSize - 1) / chunkSize := by
    by_contra hc
    have hc2 : (B.length + chunkSize - 1) / chunkSize + 1 ≤ cursor / chunkSize := by omega
    have hc3 := Nat.mul_le_mul_right chunkSize hc2
    rw [Nat.succ_mul] at hc3
    omega
  have hrc : readChunk chunkSize (mkBlob chunkSize B) cursor (some (n + 1)) =
      ((B.drop cursor).take (n + 1), cursor + (n + 1)) := by
    simp only [readChunk, mkBlob]
    rw [filter_and_split, filter_ge_mkChunks chunkSize _ 0 (cursor / chunkSize) B
      (Nat.zero_le _)]
    simp only [Nat.sub_zero]
    rw [filter_le_mkChunks]
    have hm6 : cursor + (n + 1) ≤
        (cursor / chunkSize +
          min ((B.length + chunkSize - 1) / chunkSize - cursor / chunkSize)
            ((cursor + (n + 1)) / chunkSize + 1 - cursor / chunkSize)) * chunkSize := by
      have hsum : cursor / chunkSize +
          min ((B.length + chunkSize - 1) / chunkSize - cursor / chunkSize)
            ((cursor + (n + 1)) / chunkSize + 1 - cursor / chunkSize) =
          min ((B.length + chunkSize - 1) / chunkSize)
            ((cursor + (n + 1)) / chunkSize + 1) := by omega
      rw [hsum]
      rcases Nat.le_total ((B.length + chunkSize - 1) / chunkSize)
          ((cursor + (n + 1)) / chunkSize + 1) with hmin | hmin
      · rw [Nat.min_eq_left hmin]
        omega
      · rw [Nat.min_eq_right hmin]
        rw [Nat.succ_mul]
        omega
    rw [readLoop_mkChunks_size chunkSize hcs _ _ cursor n _ [] hlocs (by omega)
      hal (by rw [List.length_drop]; omega) hm6]
    rw [List.nil_append, List.drop_drop]
    have he : cursor / chunkSize * chunkSize + (cursor - cursor / chunkSize * chunkSize)
        = cursor := by omega
    rw [he]
  refine ⟨?_, ?_⟩
  · simp [BlobReader.read, hrc]
  · rw [List.length_take, List.length_drop]
    omega

/-- Witness for `read_boundary_exact`: `chunk_size = 4`, blob `"abcdefgh"`,
cursor 2, size 2 (ends exactly at the chunk-0/chunk-1 boundary): returns
`"cd"`, not including `"e"`. -/
theorem read_boundary_exact_witness :
    (0 < 2 ∧ (2 + 2) % 4 = 0 ∧
      2 + 2 ≤ ([97, 98, 99, 100, 101, 102, 103, 104] : List Byte).length) ∧
    (BlobReader.read 4 (mkBlob 4 [97, 98, 99, 100, 101, 102, 103, 104])
        { cursor := 2, closed := false } (some 2) =
      ({ cursor := 2 + 2, closed := false },
        .ok ((([97, 98, 99, 100, 101, 102, 103, 104] : List Byte).drop 2).take 2)) ∧
      ((([97, 98, 99, 100, 101, 102, 103, 104] : List Byte).drop 2).take 2).length = 2) :=
  ⟨⟨by decide, by decide, by decide⟩,
    read_boundary_exact 4 (by decide) [97, 98, 99, 100, 101, 102, 103, 104] 2 2
      (by decide) (by decide) (by decide)⟩

end FdbBlob
